import Mathlib

/-!
# MetaPi: hexadecimal digits of pi by the Bailey-Borwein-Plouffe formula

A shallow embedding of the metafunctions of `mp_utils.h` and `mp_pi.h`.

* `uint64_t` template arguments are natural numbers; every product or sum the
  source forms in `uint64_t` is reduced modulo `2 ^ 64`.
* `double` values are exact rationals; the cast `(int)` is truncation toward
  zero.
* A template recursion over `K` that ends in the specialisation `K = -1` is a
  recursion over the number of steps `K + 1`.
-/

namespace meta_pi

/-- Number of values of a `uint64_t`. -/
def U64 : Nat := 2 ^ 64

/-- Largest `uint32_t`, `std::numeric_limits<uint32_t>::max()`. -/
def UINT32_MAX : Nat := 4294967295

/-- Value `Pow<TBase, TExp>::value` (mp_utils.h 50-61). The specialisation `TExp = 0`
is `1`; otherwise the value is `0` when `TBase != 0` and
`(UINT32_MAX - 1) / TBase < Pow<TBase, TExp - 1>`, and the 64-bit product
`TBase * Pow<TBase, TExp - 1>` if not. -/
def Pow (TBase : Nat) : Nat → Nat
  | 0 => 1
  | TExp + 1 =>
    if TBase ≠ 0 ∧ (UINT32_MAX - 1) / TBase < Pow TBase TExp then 0
    else (TBase * Pow TBase TExp) % U64

/-- Value `ModularExp_<TBaseMod, TMod, TExp>::value` (mp_utils.h 71-82). The
specialisation `TExp = 0` is `1`. Otherwise the instance with the squared base
`(TBaseMod * TBaseMod) % TMod` and the exponent `TExp >> 1` is taken, and
multiplied by `TBaseMod` modulo `TMod` when the low bit of `TExp` is set. Both
products are 64-bit. The source is ill-formed for `TMod = 0`. -/
def ModularExp_ (TBaseMod TMod TExp : Nat) : Nat :=
  if h : TExp = 0 then 1
  else if TExp % 2 = 1 then
    ((ModularExp_ ((TBaseMod * TBaseMod) % U64 % TMod) TMod (TExp / 2) * TBaseMod) % U64) % TMod
  else
    ModularExp_ ((TBaseMod * TBaseMod) % U64 % TMod) TMod (TExp / 2)
termination_by TExp
decreasing_by all_goals omega

/-- Value `ModularExp<TBase, TExp, TMod>::value` (mp_utils.h 67-70). -/
def ModularExp (TBase TExp TMod : Nat) : Nat :=
  ModularExp_ (TBase % TMod) TMod TExp

/-- The exact (unreduced) products that the evaluation of
`ModularExp_<TBaseMod, TMod, TExp>` forms in `uint64_t`: at every instance with
`TExp != 0` the square `TBaseMod * TBaseMod` (a template argument of the next
instance), and, when the low bit of `TExp` is set, the product of the next
instance's value with `TBaseMod`. -/
def ModularExp_products (TBaseMod TMod TExp : Nat) : List Nat :=
  if h : TExp = 0 then []
  else if TExp % 2 = 1 then
    (TBaseMod * TBaseMod) ::
      (ModularExp_ ((TBaseMod * TBaseMod) % U64 % TMod) TMod (TExp / 2) * TBaseMod) ::
      ModularExp_products ((TBaseMod * TBaseMod) % U64 % TMod) TMod (TExp / 2)
  else
    (TBaseMod * TBaseMod) ::
      ModularExp_products ((TBaseMod * TBaseMod) % U64 % TMod) TMod (TExp / 2)
termination_by TExp
decreasing_by all_goals omega

/-- The cast `(int)x` of a `double`: truncation toward zero. -/
def toInt (x : ℚ) : ℤ := if 0 ≤ x then ⌊x⌋ else ⌈x⌉

/-- Value `Abs<TValue>::value` (mp_utils.h 87-92). -/
def Abs (x : ℚ) : ℚ := if x ≥ 0 then x else -x

/-- The table `IntToHexChar` (mp_utils.h 94-97). -/
def IntToHexChar : List Char :=
  ['0', '1', '2', '3', '4', '5', '6', '7', '8', '9', 'A', 'B', 'C', 'D', 'E', 'F']

/-- The index that `HexCharacter` passes to `IntToHexChar`:
`(int)(16 * (Abs - ((int)Abs)))`. -/
def HexCharacter_index (x : ℚ) : ℤ := toInt (16 * (Abs x - (toInt (Abs x) : ℚ)))

/-- Value `HexCharacter<THexFraction>::value` (mp_utils.h 104-110); `none` when the
index falls outside the 16-entry table. -/
def HexCharacter (x : ℚ) : Option Char :=
  if 0 ≤ HexCharacter_index x then IntToHexChar[(HexCharacter_index x).toNat]? else none

/-- The recursion of `PiHexSeries_L0_<M, I, K>` (mp_pi.h 97-110), indexed by
the number of steps `K + 1`: zero steps is the specialisation `K = -1`, and the
step for `K` adds `ModularExp<16, I - K, 8 * K + M> / (8.0 * K + M)` to the
value for `K - 1` and subtracts the `(int)` part of the sum. -/
def PiHexSeries_L0_steps (M I : Nat) : Nat → ℚ
  | 0 => 0
  | K + 1 =>
    (PiHexSeries_L0_steps M I K +
      (ModularExp 16 ((I + U64 - K) % U64) ((8 * K + M) % U64) : ℚ) / (8 * (K : ℚ) + M))
    - (toInt (PiHexSeries_L0_steps M I K +
      (ModularExp 16 ((I + U64 - K) % U64) ((8 * K + M) % U64) : ℚ) / (8 * (K : ℚ) + M)) : ℚ)

/-- Value `PiHexSeries_L0_<M, I, K>::value` for `K >= -1`. -/
def PiHexSeries_L0_ (M I : Nat) (K : ℤ) : ℚ := PiHexSeries_L0_steps M I (K + 1).toNat

/-- The recursion of `PiHexSeries_L1_<M, I, K>` (mp_pi.h 111-126), indexed by
the number of steps `K + 1`: the step for `K` adds
`1.0 / (Pow<16, K> * (8.0 * (K + I) + M))` when `Pow<16, K> > 0` and `0.0` when
not, and subtracts the `(int)` part of the sum. `K + I` is a 64-bit sum. -/
def PiHexSeries_L1_steps (M I : Nat) : Nat → ℚ
  | 0 => 0
  | K + 1 =>
    (PiHexSeries_L1_steps M I K +
      (if Pow 16 K > 0 then
        1 / ((Pow 16 K : ℚ) * (8 * (((K + I) % U64 : ℕ) : ℚ) + M)) else 0))
    - (toInt (PiHexSeries_L1_steps M I K +
      (if Pow 16 K > 0 then
        1 / ((Pow 16 K : ℚ) * (8 * (((K + I) % U64 : ℕ) : ℚ) + M)) else 0)) : ℚ)

/-- Value `PiHexSeries_L1_<M, I, K>::value` for `K >= -1`. -/
def PiHexSeries_L1_ (M I : Nat) (K : ℤ) : ℚ := PiHexSeries_L1_steps M I (K + 1).toNat

/-- Value `PiHexSeries<M, I>::value` (mp_pi.h 92-96): the head sum up to `K = I - 1`
(the empty sum `K = -1` for `I = 0`) plus the tail sum up to `K = 10`. -/
def PiHexSeries (M I : Nat) : ℚ :=
  PiHexSeries_L0_ M I ((I : ℤ) - 1) + PiHexSeries_L1_ M I 10

/-- Value `PiHexFraction_<TStartDigit>::value` (mp_pi.h 77-83). -/
def PiHexFraction_ (TStartDigit : Nat) : ℚ :=
  4 * PiHexSeries 1 TStartDigit - 2 * PiHexSeries 4 TStartDigit
    - PiHexSeries 5 TStartDigit - PiHexSeries 6 TStartDigit

/-- Value `PiHexFraction<TStartDigit>::value` (mp_pi.h 70-76). -/
def PiHexFraction (TStartDigit : Nat) : ℚ :=
  PiHexFraction_ TStartDigit - (toInt (PiHexFraction_ TStartDigit) : ℚ) + 1

/-- Value `PiHexDigit<N>::value` (mp_pi.h 60-63). -/
def PiHexDigit (N : Nat) : Option Char := HexCharacter (PiHexFraction N)

/-- The partial sum of one Bailey-Borwein-Plouffe series up to `k = I + 7`,
scaled by `16 ^ I`: the sum of `16 ^ (I - k) / (8 k + M)`. -/
def BBP_series_sum (M I : Nat) : ℚ :=
  ∑ k ∈ Finset.range (I + 8), (16 : ℚ) ^ ((I : ℤ) - (k : ℤ)) / (8 * (k : ℚ) + M)

/-- The partial sum of the Bailey-Borwein-Plouffe formula for pi up to
`k = I + 7`, scaled by `16 ^ I`. -/
def BBP_pi_sum (I : Nat) : ℚ :=
  (16 : ℚ) ^ I * ∑ k ∈ Finset.range (I + 8), (16 : ℚ) ^ (-(k : ℤ)) *
    (4 / (8 * (k : ℚ) + 1) - 2 / (8 * (k : ℚ) + 4) - 1 / (8 * (k : ℚ) + 5)
      - 1 / (8 * (k : ℚ) + 6))

/-- Two rationals that differ by an integer (congruent modulo 1). -/
def IsIntDiff (a b : ℚ) : Prop := ∃ n : ℤ, a - b = n

/-- The array `pi_4hex_digits` of sample.cpp 5-10. -/
def pi_4hex_digits : List (Option Char) :=
  [PiHexDigit 0, PiHexDigit 1, PiHexDigit 2, PiHexDigit 3]

/-- The string `pi_string` that `Test4Digits` builds from `pi_4hex_digits`
(sample.cpp 13). -/
def pi_string : String := String.mk (pi_4hex_digits.filterMap id)

/-- The head part as the specification words it: for `k = 0, 1, ..., I - 1` in
that order the term `modpow(16, I - 1 - k, 8k + M) / (8k + M)` is added to a
running sum that starts at 0, and the integer part of the sum is discarded
after every addition. The `modpow` of the specification is `ModularExp`. -/
def spec_head_part (M I : Nat) : ℚ :=
  (List.range I).foldl
    (fun s k => Int.fract (s + (ModularExp 16 (I - 1 - k) (8 * k + M) : ℚ) / (8 * (k : ℚ) + M))) 0

/-- The same accumulation with the exponent `I - k` in place of `I - 1 - k`. -/
def head_part_by_terms (M I : Nat) : ℚ :=
  (List.range I).foldl
    (fun s k => Int.fract (s + (ModularExp 16 (I - k) (8 * k + M) : ℚ) / (8 * (k : ℚ) + M))) 0

/-- The tail part as the specification words it: from the step `k` and the
running sum `s`, while `ipow(16, k) > 0` the term `1 / (16 ^ k * (8 (k + I) + M))`
is added, the integer part of the sum is discarded and `k` goes up by one; the
accumulation stops at the first `k` with `ipow(16, k) = 0`. The `ipow` of the
specification is `Pow`. The first argument bounds the number of loop tests;
`none` when it runs out before the loop stops. -/
def spec_tail_part (M I : Nat) : Nat → Nat → ℚ → Option ℚ
  | 0, _, _ => none
  | fuel + 1, k, s =>
    if Pow 16 k > 0 then
      spec_tail_part M I fuel (k + 1)
        (Int.fract (s + 1 / ((16 : ℚ) ^ k * (8 * ((k : ℚ) + (I : ℚ)) + M))))
    else some s

/-! ## Integer power and modular power -/

theorem Pow_closed_form (b e : Nat) :
    Pow b e = if b ^ e ≤ UINT32_MAX - 1 then b ^ e else 0 := by
  induction e with
  | zero => simp [Pow, UINT32_MAX]
  | succ e ih =>
    rw [Pow, ih]
    rcases Nat.eq_zero_or_pos b with hb | hb
    · subst hb
      simp [UINT32_MAX]
    · have hne : b ≠ 0 := Nat.pos_iff_ne_zero.mp hb
      by_cases h : b ^ e ≤ UINT32_MAX - 1
      · rw [if_pos h]
        by_cases h2 : b ^ (e + 1) ≤ UINT32_MAX - 1
        · have h3 : ¬ ((UINT32_MAX - 1) / b < b ^ e) := by
            rw [Nat.div_lt_iff_lt_mul hb, ← pow_succ]
            omega
          rw [if_neg (fun hc => h3 hc.2), if_pos h2, ← pow_succ']
          apply Nat.mod_eq_of_lt
          have : UINT32_MAX - 1 < U64 := by decide
          omega
        · have h3 : (UINT32_MAX - 1) / b < b ^ e := by
            rw [Nat.div_lt_iff_lt_mul hb, ← pow_succ]
            omega
          rw [if_pos ⟨hne, h3⟩, if_neg h2]
      · rw [if_neg h]
        have h2 : ¬ b ^ (e + 1) ≤ UINT32_MAX - 1 := by
          have : b ^ e ≤ b ^ (e + 1) := Nat.pow_le_pow_right hb (Nat.le_succ e)
          omega
        rw [if_neg h2]
        simp

theorem ModularExp__spec (m : Nat) (hm : 0 < m) (hm32 : m ≤ 2 ^ 32) :
    ∀ (e B : Nat), B < m →
      ModularExp_ B m e = (if e = 0 then 1 else B ^ e % m) ∧
      ∀ p ∈ ModularExp_products B m e, p ≤ 2 ^ 64 - 1 := by
  intro e
  induction e using Nat.strong_induction_on with
  | _ e ih =>
    intro B hB
    have hBB : B * B < U64 := by
      have h1 : B * B < m * m := Nat.mul_lt_mul'' hB hB
      have h2 : m * m ≤ 2 ^ 32 * 2 ^ 32 := Nat.mul_le_mul hm32 hm32
      have h3 : (2:ℕ) ^ 32 * 2 ^ 32 = U64 := by decide
      omega
    rw [ModularExp_, ModularExp_products]
    by_cases he : e = 0
    · simp [he]
    · have hlt : e / 2 < e := by omega
      have hB2 : B * B % m < m := Nat.mod_lt _ hm
      obtain ⟨ihv, ihp⟩ := ih (e / 2) hlt (B * B % m) hB2
      rw [Nat.mod_eq_of_lt hBB]
      rw [dif_neg he, dif_neg he, if_neg he, ihv]
      have hrec : (if e / 2 = 0 then 1 else (B * B % m) ^ (e / 2) % m) ≤ 2 ^ 32 := by
        split_ifs
        · norm_num
        · exact le_trans (Nat.le_of_lt (Nat.mod_lt _ hm)) hm32
      have hprod : (if e / 2 = 0 then 1 else (B * B % m) ^ (e / 2) % m) * B < U64 := by
        have h1 : (if e / 2 = 0 then 1 else (B * B % m) ^ (e / 2) % m) * B ≤ 2 ^ 32 * B :=
          Nat.mul_le_mul_right _ hrec
        have h2 : 2 ^ 32 * B < 2 ^ 32 * 2 ^ 32 :=
          Nat.mul_lt_mul_of_pos_left (lt_of_lt_of_le hB hm32) (by norm_num)
        have h3 : (2:ℕ) ^ 32 * 2 ^ 32 = U64 := by decide
        omega
      have hU : U64 = 2 ^ 64 := rfl
      have hpow : (B * B % m) ^ (e / 2) % m = B ^ (2 * (e / 2)) % m := by
        rw [pow_mul, ← Nat.pow_mod, pow_two]
      by_cases hodd : e % 2 = 1
      · rw [if_pos hodd, if_pos hodd]
        refine ⟨?_, ?_⟩
        · rw [Nat.mod_eq_of_lt hprod]
          by_cases h0 : e / 2 = 0
          · have : e = 1 := by omega
            subst this
            simp
          · rw [if_neg h0, hpow, Nat.mod_mul_mod, ← pow_succ]
            congr 2
            omega
        · intro p hp
          simp only [List.mem_cons] at hp
          rcases hp with rfl | rfl | hp
          · omega
          · omega
          · exact ihp p hp
      · rw [if_neg hodd, if_neg hodd]
        refine ⟨?_, ?_⟩
        · have h0 : e / 2 ≠ 0 := by omega
          rw [if_neg h0, hpow]
          congr 2
          omega
        · intro p hp
          simp only [List.mem_cons] at hp
          rcases hp with rfl | hp
          · omega
          · exact ihp p hp

/-! ## Truncation, absolute value and the digit table -/

theorem toInt_of_nonneg {x : ℚ} (h : 0 ≤ x) : toInt x = ⌊x⌋ := by
  simp [toInt, h]

theorem toInt_of_neg {x : ℚ} (h : x < 0) : toInt x = ⌈x⌉ := by
  simp [toInt, not_le.mpr h]

theorem sub_toInt_of_nonneg {x : ℚ} (h : 0 ≤ x) :
    0 ≤ x - (toInt x : ℚ) ∧ x - (toInt x : ℚ) < 1 := by
  rw [toInt_of_nonneg h]
  exact ⟨sub_nonneg.mpr (Int.floor_le x), by linarith [Int.lt_floor_add_one x]⟩

theorem sub_toInt_of_neg {x : ℚ} (h : x < 0) :
    -1 < x - (toInt x : ℚ) ∧ x - (toInt x : ℚ) ≤ 0 := by
  rw [toInt_of_neg h]
  exact ⟨by linarith [Int.ceil_lt_add_one x], sub_nonpos.mpr (Int.le_ceil x)⟩

theorem Abs_nonneg (x : ℚ) : 0 ≤ Abs x := by
  unfold Abs
  split_ifs with h
  · exact h
  · linarith

theorem HexCharacter_index_bounds (x : ℚ) :
    0 ≤ HexCharacter_index x ∧ HexCharacter_index x ≤ 15 := by
  obtain ⟨h0, h1⟩ := sub_toInt_of_nonneg (Abs_nonneg x)
  have h16 : (0 : ℚ) ≤ 16 * (Abs x - (toInt (Abs x) : ℚ)) := by linarith
  unfold HexCharacter_index
  rw [toInt_of_nonneg h16]
  refine ⟨Int.floor_nonneg.mpr h16, ?_⟩
  have : ⌊16 * (Abs x - (toInt (Abs x) : ℚ))⌋ < 16 := by
    rw [Int.floor_lt]
    push_cast
    linarith
  omega

theorem HexCharacter_some (x : ℚ) :
    ∃ c, HexCharacter x = some c ∧ c ∈ IntToHexChar := by
  obtain ⟨h0, h1⟩ := HexCharacter_index_bounds x
  have hlt : (HexCharacter_index x).toNat < IntToHexChar.length := by
    have : IntToHexChar.length = 16 := rfl
    omega
  refine ⟨IntToHexChar[(HexCharacter_index x).toNat], ?_, List.getElem_mem _⟩
  unfold HexCharacter
  rw [if_pos h0, List.getElem?_eq_getElem hlt]

theorem PiHexFraction_cases (N : Nat) :
    (0 ≤ PiHexFraction_ N ∧ 1 ≤ PiHexFraction N ∧ PiHexFraction N < 2) ∨
    (PiHexFraction_ N < 0 ∧ 0 < PiHexFraction N ∧ PiHexFraction N ≤ 1) := by
  unfold PiHexFraction
  rcases le_or_lt 0 (PiHexFraction_ N) with h | h
  · left
    obtain ⟨h0, h1⟩ := sub_toInt_of_nonneg h
    exact ⟨h, by linarith, by linarith⟩
  · right
    obtain ⟨h0, h1⟩ := sub_toInt_of_neg h
    exact ⟨h, by linarith, by linarith⟩

/-! ## The series and the Bailey-Borwein-Plouffe partial sums -/

theorem IsIntDiff.refl (a : ℚ) : IsIntDiff a a := ⟨0, by simp⟩

theorem IsIntDiff.trans {a b c : ℚ} (h1 : IsIntDiff a b) (h2 : IsIntDiff b c) :
    IsIntDiff a c := by
  obtain ⟨n, hn⟩ := h1
  obtain ⟨m, hm⟩ := h2
  exact ⟨n + m, by push_cast; linarith⟩

theorem IsIntDiff.add {a b c d : ℚ} (h1 : IsIntDiff a b) (h2 : IsIntDiff c d) :
    IsIntDiff (a + c) (b + d) := by
  obtain ⟨n, hn⟩ := h1
  obtain ⟨m, hm⟩ := h2
  exact ⟨n + m, by push_cast; linarith⟩

theorem IsIntDiff.sub {a b c d : ℚ} (h1 : IsIntDiff a b) (h2 : IsIntDiff c d) :
    IsIntDiff (a - c) (b - d) := by
  obtain ⟨n, hn⟩ := h1
  obtain ⟨m, hm⟩ := h2
  exact ⟨n - m, by push_cast; linarith⟩

theorem IsIntDiff.int_mul (z : ℤ) {a b : ℚ} (h : IsIntDiff a b) :
    IsIntDiff (z * a) (z * b) := by
  obtain ⟨n, hn⟩ := h
  exact ⟨z * n, by push_cast; rw [← hn]; ring⟩

theorem IsIntDiff.sub_toInt (x : ℚ) : IsIntDiff (x - (toInt x : ℚ)) x :=
  ⟨-toInt x, by push_cast; ring⟩

/-- A residue divided by its modulus differs from the full quotient by an integer. -/
theorem IsIntDiff.mod_div (a m : Nat) (hm : 0 < m) :
    IsIntDiff (((a % m : ℕ) : ℚ) / (m : ℚ)) ((a : ℚ) / (m : ℚ)) := by
  refine ⟨-((a / m : ℕ) : ℤ), ?_⟩
  have hm0 : (m : ℚ) ≠ 0 := by exact_mod_cast hm.ne'
  have h : (a : ℚ) = (m : ℚ) * ((a / m : ℕ) : ℚ) + ((a % m : ℕ) : ℚ) := by
    exact_mod_cast (Nat.div_add_mod a m).symm
  rw [Int.cast_neg, Int.cast_natCast, div_sub_div_same, div_eq_iff hm0]
  linarith [h]

theorem ModularExp_eq (b e m : Nat) (hm : 0 < m) (hm32 : m ≤ 2 ^ 32) (he : e ≠ 0 ∨ 2 ≤ m) :
    ModularExp b e m = b ^ e % m := by
  unfold ModularExp
  rw [(ModularExp__spec m hm hm32 e (b % m) (Nat.mod_lt _ hm)).1]
  by_cases h0 : e = 0
  · subst h0
    have : 2 ≤ m := by tauto
    simp
    rw [Nat.mod_eq_of_lt (by omega)]
  · rw [if_neg h0, ← Nat.pow_mod]

theorem head_term (M I K : Nat) (hM : 1 ≤ M) (hM6 : M ≤ 6) (hI : 8 * I + 6 < 2 ^ 32)
    (hK : K < I) :
    IsIntDiff
      ((ModularExp 16 ((I + U64 - K) % U64) ((8 * K + M) % U64) : ℚ) / (8 * (K : ℚ) + M))
      ((16 : ℚ) ^ ((I : ℤ) - (K : ℤ)) / (8 * (K : ℚ) + M)) := by
  have hU : U64 = 2 ^ 64 := rfl
  have h1 : (I + U64 - K) % U64 = I - K := by
    rw [hU]; omega
  have h2 : (8 * K + M) % U64 = 8 * K + M := by
    rw [hU]; omega
  rw [h1, h2, ModularExp_eq 16 (I - K) (8 * K + M) (by omega) (by omega) (Or.inl (by omega))]
  have h3 : (16 : ℚ) ^ ((I : ℤ) - (K : ℤ)) = ((16 ^ (I - K) : ℕ) : ℚ) := by
    have : ((I : ℤ) - (K : ℤ)) = ((I - K : ℕ) : ℤ) := by omega
    rw [this, zpow_natCast]
    push_cast
    rfl
  have h4 : (8 * (K : ℚ) + M) = ((8 * K + M : ℕ) : ℚ) := by push_cast; rfl
  rw [h3, h4]
  exact IsIntDiff.mod_div _ _ (by omega)

theorem head_sum (M I : Nat) (hM : 1 ≤ M) (hM6 : M ≤ 6) (hI : 8 * I + 6 < 2 ^ 32) :
    ∀ n, n ≤ I → IsIntDiff (PiHexSeries_L0_steps M I n)
      (∑ k ∈ Finset.range n, (16 : ℚ) ^ ((I : ℤ) - (k : ℤ)) / (8 * (k : ℚ) + M)) := by
  intro n
  induction n with
  | zero => intro _; simpa [PiHexSeries_L0_steps] using IsIntDiff.refl 0
  | succ n ih =>
    intro hn
    rw [PiHexSeries_L0_steps, Finset.sum_range_succ]
    exact (IsIntDiff.sub_toInt _).trans ((ih (by omega)).add (head_term M I n hM hM6 hI (by omega)))

theorem tail_sum (M I : Nat) :
    ∀ n, IsIntDiff (PiHexSeries_L1_steps M I n)
      (∑ K ∈ Finset.range n, (if Pow 16 K > 0 then
        1 / ((Pow 16 K : ℚ) * (8 * (((K + I) % U64 : ℕ) : ℚ) + M)) else 0)) := by
  intro n
  induction n with
  | zero => simpa [PiHexSeries_L1_steps] using IsIntDiff.refl 0
  | succ n ih =>
    rw [PiHexSeries_L1_steps, Finset.sum_range_succ]
    exact (IsIntDiff.sub_toInt _).trans (ih.add (IsIntDiff.refl _))

theorem Pow_16_values :
    Pow 16 0 = 1 ∧ Pow 16 1 = 16 ∧ Pow 16 2 = 16 ^ 2 ∧ Pow 16 3 = 16 ^ 3 ∧ Pow 16 4 = 16 ^ 4 ∧
    Pow 16 5 = 16 ^ 5 ∧ Pow 16 6 = 16 ^ 6 ∧ Pow 16 7 = 16 ^ 7 ∧ Pow 16 8 = 0 ∧ Pow 16 9 = 0 ∧
    Pow 16 10 = 0 := by decide

theorem tail_terms (M I : Nat) (hI : 8 * I + 6 < 2 ^ 32) :
    (∑ K ∈ Finset.range 11, (if Pow 16 K > 0 then
        1 / ((Pow 16 K : ℚ) * (8 * (((K + I) % U64 : ℕ) : ℚ) + M)) else 0)) =
    ∑ j ∈ Finset.range 8, (16 : ℚ) ^ ((I : ℤ) - ((I + j : ℕ) : ℤ)) / (8 * ((I + j : ℕ) : ℚ) + M) := by
  have hU : U64 = 2 ^ 64 := rfl
  have hmod : ∀ K, K < 11 → (K + I) % U64 = I + K := by
    intro K hK; rw [hU]; omega
  obtain ⟨p0, p1, p2, p3, p4, p5, p6, p7, p8, p9, p10⟩ := Pow_16_values
  have hz : ∀ j : ℕ, (16 : ℚ) ^ ((I : ℤ) - ((I + j : ℕ) : ℤ)) = 1 / (16 : ℚ) ^ j := by
    intro j
    have : ((I : ℤ) - ((I + j : ℕ) : ℤ)) = -(j : ℤ) := by push_cast; ring
    rw [this, zpow_neg, zpow_natCast, one_div]
  simp only [Finset.sum_range_succ, Finset.sum_range_zero, hz]
  rw [p0, p1, p2, p3, p4, p5, p6, p7, p8, p9, p10]
  rw [hmod 0 (by norm_num), hmod 1 (by norm_num), hmod 2 (by norm_num), hmod 3 (by norm_num),
    hmod 4 (by norm_num), hmod 5 (by norm_num), hmod 6 (by norm_num), hmod 7 (by norm_num)]
  norm_num
  simp only [div_eq_mul_inv, mul_inv]
  ring

theorem PiHexSeries_congr (M I : Nat) (hM : 1 ≤ M) (hM6 : M ≤ 6) (hI : 8 * I + 6 < 2 ^ 32) :
    IsIntDiff (PiHexSeries M I) (BBP_series_sum M I) := by
  unfold PiHexSeries BBP_series_sum PiHexSeries_L0_ PiHexSeries_L1_
  rw [Finset.sum_range_add]
  have h1 : ((I : ℤ) - 1 + 1).toNat = I := by simp
  have h2 : ((10 : ℤ) + 1).toNat = 11 := by decide
  rw [h1, h2]
  refine (head_sum M I hM hM6 hI I le_rfl).add ?_
  have := tail_sum M I 11
  rw [tail_terms M I hI] at this
  exact this


theorem BBP_pi_sum_eq (I : Nat) :
    4 * BBP_series_sum 1 I - 2 * BBP_series_sum 4 I - BBP_series_sum 5 I - BBP_series_sum 6 I
      = BBP_pi_sum I := by
  unfold BBP_series_sum BBP_pi_sum
  simp only [Finset.mul_sum, ← Finset.sum_sub_distrib]
  refine Finset.sum_congr rfl ?_
  intro k _
  have h16 : (16 : ℚ) ≠ 0 := by norm_num
  have hz : (16 : ℚ) ^ ((I : ℤ) - (k : ℤ)) = (16 : ℚ) ^ I * (16 : ℚ) ^ (-(k : ℤ)) := by
    rw [sub_eq_add_neg, zpow_add₀ h16, zpow_natCast]
  rw [hz]
  push_cast
  ring

theorem PiHexFraction__congr (I : Nat) (hI : 8 * I + 6 < 2 ^ 32) :
    IsIntDiff (PiHexFraction_ I) (BBP_pi_sum I) := by
  rw [← BBP_pi_sum_eq]
  unfold PiHexFraction_
  have h1 := PiHexSeries_congr 1 I (by norm_num) (by norm_num) hI
  have h4 := PiHexSeries_congr 4 I (by norm_num) (by norm_num) hI
  have h5 := PiHexSeries_congr 5 I (by norm_num) (by norm_num) hI
  have h6 := PiHexSeries_congr 6 I (by norm_num) (by norm_num) hI
  have a := IsIntDiff.int_mul 4 h1
  have b := IsIntDiff.int_mul 2 h4
  push_cast at a b
  exact ((a.sub b).sub h5).sub h6

/-! ## Ranges of the running sums -/

theorem sub_toInt_eq_fract {x : ℚ} (h : 0 ≤ x) : x - (toInt x : ℚ) = Int.fract x := by
  rw [toInt_of_nonneg h]
  rfl

theorem head_term_nonneg (M I K : Nat) :
    (0 : ℚ) ≤ (ModularExp 16 ((I + U64 - K) % U64) ((8 * K + M) % U64) : ℚ) / (8 * (K : ℚ) + M) := by
  apply div_nonneg
  · exact Nat.cast_nonneg _
  · positivity

theorem tail_term_nonneg (M I K : Nat) :
    (0 : ℚ) ≤ (if Pow 16 K > 0 then
        1 / ((Pow 16 K : ℚ) * (8 * (((K + I) % U64 : ℕ) : ℚ) + M)) else 0) := by
  split_ifs
  · positivity
  · exact le_rfl

theorem L0_steps_range (M I : Nat) :
    ∀ n, 0 ≤ PiHexSeries_L0_steps M I n ∧ PiHexSeries_L0_steps M I n < 1 := by
  intro n
  induction n with
  | zero => simp [PiHexSeries_L0_steps]
  | succ n ih =>
    rw [PiHexSeries_L0_steps]
    exact sub_toInt_of_nonneg (add_nonneg ih.1 (head_term_nonneg M I n))

theorem L1_steps_range (M I : Nat) :
    ∀ n, 0 ≤ PiHexSeries_L1_steps M I n ∧ PiHexSeries_L1_steps M I n < 1 := by
  intro n
  induction n with
  | zero => simp [PiHexSeries_L1_steps]
  | succ n ih =>
    rw [PiHexSeries_L1_steps]
    exact sub_toInt_of_nonneg (add_nonneg ih.1 (tail_term_nonneg M I n))

theorem L0_steps_succ (M I K : Nat) :
    PiHexSeries_L0_steps M I (K + 1) = Int.fract (PiHexSeries_L0_steps M I K +
      (ModularExp 16 ((I + U64 - K) % U64) ((8 * K + M) % U64) : ℚ) / (8 * (K : ℚ) + M)) := by
  rw [PiHexSeries_L0_steps]
  exact sub_toInt_eq_fract (add_nonneg (L0_steps_range M I K).1 (head_term_nonneg M I K))

theorem L1_steps_succ (M I K : Nat) :
    PiHexSeries_L1_steps M I (K + 1) = Int.fract (PiHexSeries_L1_steps M I K +
      (if Pow 16 K > 0 then
        1 / ((Pow 16 K : ℚ) * (8 * (((K + I) % U64 : ℕ) : ℚ) + M)) else 0)) := by
  rw [PiHexSeries_L1_steps]
  exact sub_toInt_eq_fract (add_nonneg (L1_steps_range M I K).1 (tail_term_nonneg M I K))

theorem L1_steps_saturated (M I K : Nat) (h : Pow 16 K = 0) :
    PiHexSeries_L1_steps M I (K + 1) = PiHexSeries_L1_steps M I K := by
  rw [L1_steps_succ, h]
  simp only [gt_iff_lt, lt_self_iff_false, if_false, add_zero]
  exact Int.fract_eq_self.mpr (L1_steps_range M I K)

theorem ModularExp__lt (m : Nat) (hm : 0 < m) :
    ∀ (e B : Nat), e ≠ 0 → ModularExp_ B m e < m := by
  intro e
  induction e using Nat.strong_induction_on with
  | _ e ih =>
    intro B he
    rw [ModularExp_, dif_neg he]
    split_ifs with hodd
    · exact Nat.mod_lt _ hm
    · exact ih (e / 2) (by omega) _ (by omega)

theorem Pow_16_eq (k : Nat) : Pow 16 k = if k ≤ 7 then 16 ^ k else 0 := by
  rw [Pow_closed_form]
  by_cases h : k ≤ 7
  · rw [if_pos h, if_pos]
    have : 16 ^ k ≤ 16 ^ 7 := Nat.pow_le_pow_right (by norm_num) h
    have h2 : (16 : ℕ) ^ 7 ≤ UINT32_MAX - 1 := by decide
    omega
  · rw [if_neg h, if_neg]
    have : 16 ^ 8 ≤ 16 ^ k := Nat.pow_le_pow_right (by norm_num) (by omega)
    have h2 : UINT32_MAX - 1 < (16 : ℕ) ^ 8 := by decide
    omega

theorem L1_steps_eleven (M I : Nat) :
    PiHexSeries_L1_steps M I 11 = PiHexSeries_L1_steps M I 8 := by
  rw [L1_steps_saturated M I 10 (by decide), L1_steps_saturated M I 9 (by decide),
    L1_steps_saturated M I 8 (by decide)]

theorem L0__eq_steps (M I : Nat) :
    PiHexSeries_L0_ M I ((I : ℤ) - 1) = PiHexSeries_L0_steps M I I := by
  unfold PiHexSeries_L0_
  have h1 : ((I : ℤ) - 1 + 1).toNat = I := by simp
  rw [h1]

theorem L1__ten_eq_steps (M I : Nat) :
    PiHexSeries_L1_ M I 10 = PiHexSeries_L1_steps M I 11 := by
  unfold PiHexSeries_L1_
  have h2 : ((10 : ℤ) + 1).toNat = 11 := by decide
  rw [h2]

theorem PiHexSeries_range (M I : Nat) : 0 ≤ PiHexSeries M I ∧ PiHexSeries M I < 2 := by
  unfold PiHexSeries PiHexSeries_L0_ PiHexSeries_L1_
  have h0 := L0_steps_range M I ((I : ℤ) - 1 + 1).toNat
  have h1 := L1_steps_range M I ((10 : ℤ) + 1).toNat
  exact ⟨by linarith [h0.1, h1.1], by linarith [h0.2, h1.2]⟩

theorem raw_fraction_bounds (I : Nat) : -8 < PiHexFraction_ I ∧ PiHexFraction_ I < 8 := by
  unfold PiHexFraction_
  have h1 := PiHexSeries_range 1 I
  have h4 := PiHexSeries_range 4 I
  have h5 := PiHexSeries_range 5 I
  have h6 := PiHexSeries_range 6 I
  exact ⟨by linarith [h1.1, h4.2, h5.2, h6.2], by linarith [h1.2, h4.1, h5.1, h6.1]⟩

theorem PiHexFraction_pos (I : Nat) : 0 < PiHexFraction I ∧ PiHexFraction I < 2 := by
  rcases PiHexFraction_cases I with ⟨_, h1, h3⟩ | ⟨_, h1, h3⟩
  · exact ⟨by linarith, h3⟩
  · exact ⟨h1, by linarith⟩

theorem Abs_of_pos {x : ℚ} (h : 0 < x) : Abs x = x := by
  unfold Abs
  rw [if_pos (le_of_lt h)]

theorem HexCharacter_fract (I : Nat) :
    Abs (PiHexFraction I) - (toInt (Abs (PiHexFraction I)) : ℚ)
      = PiHexFraction_ I - (⌊PiHexFraction_ I⌋ : ℚ) := by
  rw [Abs_of_pos (PiHexFraction_pos I).1, sub_toInt_eq_fract (le_of_lt (PiHexFraction_pos I).1)]
  unfold PiHexFraction
  rw [Int.fract_add_one, Int.fract_sub_int]
  rfl

theorem HexCharacter_eq_lookup (x : ℚ) :
    HexCharacter x = IntToHexChar[(HexCharacter_index x).toNat]? := by
  unfold HexCharacter
  rw [if_pos (HexCharacter_index_bounds x).1]

theorem HexCharacter_index_of_fract (x y : ℚ) (h : Abs x - (toInt (Abs x) : ℚ) = y)
    (hy : 0 ≤ y) : HexCharacter_index x = ⌊16 * y⌋ := by
  unfold HexCharacter_index
  rw [h, toInt_of_nonneg (by linarith)]

theorem head_fold (M I : Nat) (hI : 8 * I + M < 2 ^ 64) :
    ∀ n, n ≤ I → PiHexSeries_L0_steps M I n = (List.range n).foldl
      (fun s k => Int.fract (s + (ModularExp 16 (I - k) (8 * k + M) : ℚ) / (8 * (k : ℚ) + M)))
      0 := by
  intro n
  induction n with
  | zero => intro _; simp [PiHexSeries_L0_steps]
  | succ n ih =>
    intro hn
    have hU : U64 = 2 ^ 64 := rfl
    have h1 : (I + U64 - n) % U64 = I - n := by
      rw [hU]; omega
    have h2 : (8 * n + M) % U64 = 8 * n + M := by
      rw [hU]; omega
    rw [List.range_succ, List.foldl_append, ← ih (by omega), L0_steps_succ, h1, h2]
    rfl

theorem spec_tail_run (M I : Nat) (hI : I + 7 < 2 ^ 64) :
    ∀ j k, j + k = 8 → ∀ fuel,
      spec_tail_part M I (fuel + j + 1) k (PiHexSeries_L1_steps M I k)
        = some (PiHexSeries_L1_steps M I 8) := by
  intro j
  induction j with
  | zero =>
    intro k hk fuel
    have : k = 8 := by omega
    subst this
    rw [spec_tail_part, if_neg]
    decide
  | succ j ih =>
    intro k hk fuel
    have hk7 : k ≤ 7 := by omega
    have hp : Pow 16 k = 16 ^ k := by rw [Pow_16_eq, if_pos hk7]
    have hpos : Pow 16 k > 0 := by rw [hp]; positivity
    have hU : U64 = 2 ^ 64 := rfl
    have hmod : (k + I) % U64 = k + I := by
      rw [hU]; omega
    have hstep := L1_steps_succ M I k
    rw [if_pos hpos, hp, hmod] at hstep
    push_cast at hstep
    have hf : fuel + (j + 1) + 1 = (fuel + j + 1) + 1 := by omega
    rw [hf, spec_tail_part, if_pos hpos, ← hstep]
    exact ih (k + 1) (by omega) fuel


/-! ## Properties of the specification -/

/-- C1: `PiHexDigit<0>`, `PiHexDigit<1>`, `PiHexDigit<2>` and `PiHexDigit<3>`
are the characters `2`, `4`, `3` and `F`, and the string that `Test4Digits`
builds from them is "243F". -/
theorem PiHexDigit_first_four :
    PiHexDigit 0 = some '2' ∧ PiHexDigit 1 = some '4' ∧ PiHexDigit 2 = some '3' ∧
    PiHexDigit 3 = some 'F' ∧ pi_string = "243F" := by
  decide!

/-- C2: `PiHexDigit<4>`, `PiHexDigit<5>`, `PiHexDigit<6>` and `PiHexDigit<7>`
are the characters `6`, `A`, `8` and `8`, so the four digits from index 4 form
the string "6A88". -/
theorem PiHexDigit_four_to_seven :
    PiHexDigit 4 = some '6' ∧ PiHexDigit 5 = some 'A' ∧ PiHexDigit 6 = some '8' ∧
    PiHexDigit 7 = some '8' ∧ String.mk ([4, 5, 6, 7].filterMap PiHexDigit) = "6A88" := by
  decide!

/-- C3: for a digit index `I` with `8 * I + 6 < 2 ^ 32` and every series
constant `M` of 1, 4, 5, 6, `PiHexSeries<M, I>` differs by an integer from the
partial sum of `16 ^ (I - k) / (8 k + M)` over `k = 0 .. I + 7`, and
`PiHexFraction_<I>` differs by an integer from `16 ^ I` times the partial sum of
`16 ^ (-k) * (4 / (8k+1) - 2 / (8k+4) - 1 / (8k+5) - 1 / (8k+6))`. -/
theorem PiHexSeries_BBP (I : Nat) (hI : 8 * I + 6 < 2 ^ 32) :
    (∀ M ∈ [1, 4, 5, 6], ∃ n : ℤ,
      PiHexSeries M I
        - ∑ k ∈ Finset.range (I + 8), (16 : ℚ) ^ ((I : ℤ) - (k : ℤ)) / (8 * (k : ℚ) + M) = n) ∧
    ∃ n : ℤ,
      PiHexFraction_ I
        - (16 : ℚ) ^ I * ∑ k ∈ Finset.range (I + 8), (16 : ℚ) ^ (-(k : ℤ)) *
            (4 / (8 * (k : ℚ) + 1) - 2 / (8 * (k : ℚ) + 4) - 1 / (8 * (k : ℚ) + 5)
              - 1 / (8 * (k : ℚ) + 6)) = n := by
  refine ⟨?_, PiHexFraction__congr I hI⟩
  intro M hM
  have h : 1 ≤ M ∧ M ≤ 6 := by
    simp only [List.mem_cons, List.mem_singleton, List.not_mem_nil, or_false] at hM
    omega
  exact PiHexSeries_congr M I h.1 h.2 hI

/-- Witness of C3 at the digit index 3. -/
theorem PiHexSeries_BBP_witness :
    8 * 3 + 6 < 2 ^ 32 ∧
    ((∀ M ∈ [1, 4, 5, 6], ∃ n : ℤ,
      PiHexSeries M 3
        - ∑ k ∈ Finset.range (3 + 8),
            (16 : ℚ) ^ (((3 : ℕ) : ℤ) - (k : ℤ)) / (8 * (k : ℚ) + M) = n) ∧
    ∃ n : ℤ,
      PiHexFraction_ 3
        - (16 : ℚ) ^ 3 * ∑ k ∈ Finset.range (3 + 8), (16 : ℚ) ^ (-(k : ℤ)) *
            (4 / (8 * (k : ℚ) + 1) - 2 / (8 * (k : ℚ) + 4) - 1 / (8 * (k : ℚ) + 5)
              - 1 / (8 * (k : ℚ) + 6)) = n) :=
  ⟨by decide, PiHexSeries_BBP 3 (by decide)⟩

/-- C4: for every digit index `I` the table index that `HexCharacter` computes
from `PiHexFraction<I>` lies in `0 .. 15`, so the lookup in the 16-entry table
succeeds and `PiHexDigit<I>` is one of the characters `0123456789ABCDEF`. -/
theorem PiHexDigit_in_alphabet (I : Nat) :
    0 ≤ HexCharacter_index (PiHexFraction I) ∧ HexCharacter_index (PiHexFraction I) ≤ 15 ∧
    IntToHexChar.length = 16 ∧
    ∃ c, PiHexDigit I = some c ∧ c ∈ "0123456789ABCDEF".toList := by
  obtain ⟨c, hc, hmem⟩ := HexCharacter_some (PiHexFraction I)
  exact ⟨(HexCharacter_index_bounds _).1, (HexCharacter_index_bounds _).2, rfl, c, hc, hmem⟩

/-- C5: for a modulus `2 <= m <= 2 ^ 32`, `ModularExp<base, exp, m>` with
64-bit products is `base ^ exp mod m`, and none of the products it forms exceeds
`2 ^ 64 - 1`. -/
theorem ModularExp_correct (base exp m : Nat) (h2 : 2 ≤ m) (h32 : m ≤ 2 ^ 32) :
    ModularExp base exp m = base ^ exp % m ∧
    ∀ p ∈ ModularExp_products (base % m) m exp, p ≤ 2 ^ 64 - 1 :=
  ⟨ModularExp_eq base exp m (by omega) h32 (Or.inr h2),
    (ModularExp__spec m (by omega) h32 exp (base % m) (Nat.mod_lt _ (by omega))).2⟩

/-- Witness of C5 at the base 16, the exponent 5 and the modulus 41. -/
theorem ModularExp_correct_witness :
    2 ≤ 41 ∧ 41 ≤ 2 ^ 32 ∧
    (ModularExp 16 5 41 = 16 ^ 5 % 41 ∧
      ∀ p ∈ ModularExp_products (16 % 41) 41 5, p ≤ 2 ^ 64 - 1) :=
  ⟨by decide, by decide, ModularExp_correct 16 5 41 (by decide) (by decide)⟩

/-- C6, at the exponent 0: `ModularExp<5, 0, 1>` is `1`, while `5 ^ 0 mod 1` is
`0`; so is `ModularExp<base, 0, 1>` for every base. For every exponent that is
not 0, `ModularExp<base, exp, 1>` is `0`. -/
theorem ModularExp_exp_zero_mod_one :
    ModularExp 5 0 1 = 1 ∧ 5 ^ 0 % 1 = 0 ∧ ModularExp 5 0 1 ≠ 5 ^ 0 % 1 ∧
    (∀ base : Nat, ModularExp base 0 1 = 1) ∧
    (∀ base exp : Nat, ModularExp base (exp + 1) 1 = 0) := by
  have h0 : ∀ base : Nat, ModularExp base 0 1 = 1 := by
    intro base
    unfold ModularExp
    rw [ModularExp_]
    simp
  refine ⟨h0 5, by decide, by rw [h0 5]; decide, h0, ?_⟩
  intro base exp
  rw [ModularExp_eq base (exp + 1) 1 (by decide) (by decide) (Or.inl (Nat.succ_ne_zero exp)),
    Nat.mod_one]

/-- C7 fails at the base `2 ^ 32 - 1` and the exponent 1: the power is
`2 ^ 32 - 1`, which a 32-bit unsigned integer holds, and `Pow` is `0`. -/
theorem Pow_uint32_max_counterexample :
    ¬ ((4294967295 ^ 1 ≤ 2 ^ 32 - 1 → Pow 4294967295 1 = 4294967295 ^ 1) ∧
       (4294967295 ^ 1 > 2 ^ 32 - 1 → Pow 4294967295 1 = 0)) := by
  decide

/-- C7, amended: `Pow<base, exp>` is `base ^ exp` when `base ^ exp <= 2 ^ 32 - 2`
and `0` when `base ^ exp > 2 ^ 32 - 2`. -/
theorem Pow_threshold (base exp : Nat) :
    Pow base exp = if base ^ exp ≤ 2 ^ 32 - 2 then base ^ exp else 0 :=
  Pow_closed_form base exp

/-- C8: when the power `base ^ exp` exceeds `2 ^ 32 - 1`, `Pow<base, exp>` is the
sentinel `0`. -/
theorem Pow_overflow_sentinel (base exp : Nat) (h : 2 ^ 32 - 1 < base ^ exp) :
    Pow base exp = 0 := by
  rw [Pow_closed_form, if_neg]
  have : UINT32_MAX = 2 ^ 32 - 1 := by decide
  omega

/-- Witness of C8 at the base 2 and the exponent 64. -/
theorem Pow_overflow_sentinel_witness : 2 ^ 32 - 1 < 2 ^ 64 ∧ Pow 2 64 = 0 :=
  ⟨by decide, Pow_overflow_sentinel 2 64 (by decide)⟩

/-- C9: `Pow<base, 0>` is `1` for every base, the base 0 included. -/
theorem Pow_exp_zero (base : Nat) : Pow base 0 = 1 ∧ Pow 0 0 = 1 :=
  ⟨rfl, rfl⟩

/-- C10 fails at the digit index 2: `PiHexFraction<2>` is not in `[0, 1)`. -/
theorem PiHexFraction_two_counterexample :
    ¬ (0 ≤ PiHexFraction 2 ∧ PiHexFraction 2 < 1) := by
  decide!

/-- C10, amended: `PiHexFraction<I>` lies strictly between 0 and 2, in `[1, 2)`
when `PiHexFraction_<I>` is not negative and in `(0, 1]` when it is; the value
`Abs - (int)Abs` that `HexCharacter` takes from it lies in `[0, 1)`. -/
theorem PiHexFraction_range (I : Nat) :
    (0 < PiHexFraction I ∧ PiHexFraction I < 2) ∧
    ((0 ≤ PiHexFraction_ I ∧ 1 ≤ PiHexFraction I ∧ PiHexFraction I < 2) ∨
      (PiHexFraction_ I < 0 ∧ 0 < PiHexFraction I ∧ PiHexFraction I ≤ 1)) ∧
    0 ≤ Abs (PiHexFraction I) - (toInt (Abs (PiHexFraction I)) : ℚ) ∧
    Abs (PiHexFraction I) - (toInt (Abs (PiHexFraction I)) : ℚ) < 1 := by
  have h := PiHexFraction_cases I
  have h2 := sub_toInt_of_nonneg (Abs_nonneg (PiHexFraction I))
  refine ⟨?_, h, h2.1, h2.2⟩
  rcases h with ⟨_, h1, h3⟩ | ⟨_, h1, h3⟩
  · exact ⟨by linarith, h3⟩
  · exact ⟨h1, by linarith⟩

/-- C11: with `raw = PiHexFraction_<I>`, the combination of the four series, the
digit `PiHexDigit<I>` is the table entry at `floor(16 * (raw - floor(raw)))`,
whatever the sign of `raw`. -/
theorem PiHexDigit_floor_fraction (I : Nat) :
    PiHexFraction_ I
      = 4 * PiHexSeries 1 I - 2 * PiHexSeries 4 I - PiHexSeries 5 I - PiHexSeries 6 I ∧
    HexCharacter_index (PiHexFraction I)
      = ⌊16 * (PiHexFraction_ I - (⌊PiHexFraction_ I⌋ : ℚ))⌋ ∧
    PiHexDigit I
      = IntToHexChar[(⌊16 * (PiHexFraction_ I - (⌊PiHexFraction_ I⌋ : ℚ))⌋).toNat]? := by
  have hidx := HexCharacter_index_of_fract (PiHexFraction I) _ (HexCharacter_fract I)
    (Int.fract_nonneg (PiHexFraction_ I))
  refine ⟨rfl, hidx, ?_⟩
  unfold PiHexDigit
  rw [HexCharacter_eq_lookup, hidx]

/-- C12: for a series constant `M >= 1`, the head sum `PiHexSeries_L0_<M, I, K>`
with `-1 <= K <= I - 1` and the tail sum `PiHexSeries_L1_<M, I, K>` with
`-1 <= K <= 10` lie in `[0, 1)`; the divisors `8.0 * K + M` and
`8.0 * (K + I) + M` of the terms are positive. -/
theorem partial_sums_range (M I : Nat) (hM : 1 ≤ M) :
    (∀ K : ℤ, -1 ≤ K → K ≤ (I : ℤ) - 1 →
      0 ≤ PiHexSeries_L0_ M I K ∧ PiHexSeries_L0_ M I K < 1) ∧
    (∀ K : ℤ, -1 ≤ K → K ≤ 10 →
      0 ≤ PiHexSeries_L1_ M I K ∧ PiHexSeries_L1_ M I K < 1) ∧
    (∀ K : ℕ, (0 : ℚ) < 8 * (K : ℚ) + M ∧ (0 : ℚ) < 8 * (((K + I) % U64 : ℕ) : ℚ) + M) := by
  have hpos : (0 : ℚ) < M := by exact_mod_cast hM
  exact ⟨fun K _ _ => L0_steps_range M I (K + 1).toNat,
    fun K _ _ => L1_steps_range M I (K + 1).toNat,
    fun K => ⟨by positivity, by positivity⟩⟩

/-- Witness of C12 at the series constant 1 and the digit index 3. -/
theorem partial_sums_range_witness :
    1 ≤ 1 ∧
    ((∀ K : ℤ, -1 ≤ K → K ≤ ((3 : ℕ) : ℤ) - 1 →
      0 ≤ PiHexSeries_L0_ 1 3 K ∧ PiHexSeries_L0_ 1 3 K < 1) ∧
    (∀ K : ℤ, -1 ≤ K → K ≤ 10 →
      0 ≤ PiHexSeries_L1_ 1 3 K ∧ PiHexSeries_L1_ 1 3 K < 1) ∧
    (∀ K : ℕ, (0 : ℚ) < 8 * (K : ℚ) + ((1 : ℕ) : ℚ) ∧
      (0 : ℚ) < 8 * (((K + 3) % U64 : ℕ) : ℚ) + ((1 : ℕ) : ℚ))) :=
  ⟨by decide, partial_sums_range 1 3 (by decide)⟩

/-- C13 fails at the series constant 4 and the digit index 1: the head part of
`PiHexSeries<4, 1>` is `0`, from `ModularExp<16, 1, 4> = 0`, and the
accumulation with the exponent `I - 1 - k` gives `1 / 4`, from
`modpow(16, 0, 4) = 1`. -/
theorem head_part_exponent_counterexample :
    ¬ (PiHexSeries_L0_ 4 1 (((1 : ℕ) : ℤ) - 1) = spec_head_part 4 1) := by
  decide!

/-- C13, amended: for a series constant `M` of 1, 4, 5, 6 and a digit index `I`
with `8 * I + 6 < 2 ^ 64`, the head part of `PiHexSeries<M, I>` is the result of
adding, for `k = 0, 1, ..., I - 1` in that order, the term
`ModularExp<16, I - k, 8k + M> / (8k + M)` to a running sum that starts at 0 and
has its integer part discarded after every addition. -/
theorem head_part_accumulation (M I : Nat) (hM : M ∈ [1, 4, 5, 6])
    (hI : 8 * I + 6 < 2 ^ 64) :
    PiHexSeries_L0_ M I ((I : ℤ) - 1) = head_part_by_terms M I ∧
    PiHexSeries M I = head_part_by_terms M I + PiHexSeries_L1_ M I 10 := by
  have h : M ≤ 6 := by
    simp only [List.mem_cons, List.mem_singleton, List.not_mem_nil, or_false] at hM
    omega
  have h1 : PiHexSeries_L0_ M I ((I : ℤ) - 1) = head_part_by_terms M I := by
    rw [L0__eq_steps, head_fold M I (by omega) I le_rfl]
    rfl
  refine ⟨h1, ?_⟩
  unfold PiHexSeries
  rw [h1]

/-- Witness of C13, amended, at the series constant 4 and the digit index 3. -/
theorem head_part_accumulation_witness :
    4 ∈ [1, 4, 5, 6] ∧ 8 * 3 + 6 < 2 ^ 64 ∧
    (PiHexSeries_L0_ 4 3 (((3 : ℕ) : ℤ) - 1) = head_part_by_terms 4 3 ∧
      PiHexSeries 4 3 = head_part_by_terms 4 3 + PiHexSeries_L1_ 4 3 10) :=
  ⟨by decide, by decide, head_part_accumulation 4 3 (by decide) (by decide)⟩

/-- C14: `Pow<16, k>` is `16 ^ k > 0` for `k <= 7` and `0` for `k >= 8`, so the
tail sum of 11 steps `PiHexSeries_L1_<M, I, 10>` is `PiHexSeries_L1_<M, I, 7>`;
and it is the result of the accumulation of the specification, which runs only
while `ipow(16, k) > 0`, for every bound of at least 9 loop tests (where the
64-bit sum `K + I` of the source is the exact sum, `I + 7 < 2 ^ 64`). The
divisor `8.0 * (K + I) + M` of a tail term is positive. -/
theorem tail_part_saturation (M I : Nat) (hM : 1 ≤ M) :
    (∀ k, k ≤ 7 → Pow 16 k = 16 ^ k ∧ 0 < Pow 16 k) ∧
    (∀ k, 8 ≤ k → Pow 16 k = 0) ∧
    PiHexSeries_L1_ M I 10 = PiHexSeries_L1_ M I 7 ∧
    (I + 7 < 2 ^ 64 → ∀ fuel, 9 ≤ fuel →
      spec_tail_part M I fuel 0 0 = some (PiHexSeries_L1_ M I 10)) ∧
    (∀ K : ℕ, (0 : ℚ) < 8 * (((K + I) % U64 : ℕ) : ℚ) + M) := by
  have hpos : (0 : ℚ) < M := by exact_mod_cast hM
  have h7 : PiHexSeries_L1_ M I 7 = PiHexSeries_L1_steps M I 8 := by
    unfold PiHexSeries_L1_
    have h2 : ((7 : ℤ) + 1).toNat = 8 := by decide
    rw [h2]
  refine ⟨?_, ?_, ?_, ?_, fun K => by positivity⟩
  · intro k hk
    have hp : Pow 16 k = 16 ^ k := by rw [Pow_16_eq, if_pos hk]
    exact ⟨hp, by rw [hp]; positivity⟩
  · intro k hk
    rw [Pow_16_eq, if_neg (by omega)]
  · rw [L1__ten_eq_steps, L1_steps_eleven, h7]
  · intro hI fuel hfuel
    obtain ⟨f, rfl⟩ : ∃ f, fuel = f + 8 + 1 := ⟨fuel - 9, by omega⟩
    rw [L1__ten_eq_steps, L1_steps_eleven]
    exact spec_tail_run M I hI 8 0 (by decide) f

/-- Witness of C14 at the series constant 1 and the digit index 3. -/
theorem tail_part_saturation_witness :
    1 ≤ 1 ∧
    ((∀ k, k ≤ 7 → Pow 16 k = 16 ^ k ∧ 0 < Pow 16 k) ∧
    (∀ k, 8 ≤ k → Pow 16 k = 0) ∧
    PiHexSeries_L1_ 1 3 10 = PiHexSeries_L1_ 1 3 7 ∧
    (3 + 7 < 2 ^ 64 → ∀ fuel, 9 ≤ fuel →
      spec_tail_part 1 3 fuel 0 0 = some (PiHexSeries_L1_ 1 3 10)) ∧
    (∀ K : ℕ, (0 : ℚ) < 8 * (((K + 3) % U64 : ℕ) : ℚ) + ((1 : ℕ) : ℚ))) :=
  ⟨by decide, tail_part_saturation 1 3 (by decide)⟩

/-- C15: for a fraction `0 <= f < 1`, `HexCharacter` returns the table entry at
`floor(16 * f)`, and the table holds `0` to `9` at 0..9 and `A` to `F` at
10..15. -/
theorem HexCharacter_leading_digit (f : ℚ) (h0 : 0 ≤ f) (h1 : f < 1) :
    HexCharacter_index f = ⌊16 * f⌋ ∧
    HexCharacter f = IntToHexChar[(⌊16 * f⌋).toNat]? ∧
    (∃ c, HexCharacter f = some c) ∧
    IntToHexChar = "0123456789ABCDEF".toList := by
  have hA : Abs f = f := by
    unfold Abs
    rw [if_pos h0]
  have hfr : Abs f - (toInt (Abs f) : ℚ) = f := by
    rw [hA, sub_toInt_eq_fract h0]
    exact Int.fract_eq_self.mpr ⟨h0, h1⟩
  have hidx := HexCharacter_index_of_fract f f hfr h0
  obtain ⟨c, hc, _⟩ := HexCharacter_some f
  refine ⟨hidx, ?_, ⟨c, hc⟩, rfl⟩
  rw [HexCharacter_eq_lookup, hidx]

/-- Witness of C15 at the fraction `5 / 8`. -/
theorem HexCharacter_leading_digit_witness :
    (0 : ℚ) ≤ 5 / 8 ∧ (5 / 8 : ℚ) < 1 ∧
    (HexCharacter_index (5 / 8) = ⌊16 * (5 / 8 : ℚ)⌋ ∧
    HexCharacter (5 / 8) = IntToHexChar[(⌊16 * (5 / 8 : ℚ)⌋).toNat]? ∧
    (∃ c, HexCharacter (5 / 8) = some c) ∧
    IntToHexChar = "0123456789ABCDEF".toList) :=
  ⟨by norm_num, by norm_num, HexCharacter_leading_digit (5 / 8) (by norm_num) (by norm_num)⟩

/-- C16: for a modulus `m > 0`, `ModularExp<base, 0, m>` is `1`: the reduced base
`TBase % TMod` is below `m` and the specialisation `ModularExp_<Base, Mod, 0>`
is `1`, with no reduction modulo `m`. -/
theorem ModularExp_terminal_case (base m : Nat) (hm : 0 < m) :
    ModularExp base 0 m = 1 ∧ base % m < m ∧ ModularExp_ (base % m) m 0 = 1 := by
  have h : ModularExp_ (base % m) m 0 = 1 := by
    rw [ModularExp_]
    simp
  exact ⟨h, Nat.mod_lt _ hm, h⟩

/-- Witness of C16 at the base 7 and the modulus 5. -/
theorem ModularExp_terminal_case_witness :
    0 < 5 ∧ (ModularExp 7 0 5 = 1 ∧ 7 % 5 < 5 ∧ ModularExp_ (7 % 5) 5 0 = 1) :=
  ⟨by decide, ModularExp_terminal_case 7 5 (by decide)⟩

/-- C17: for a series constant `M` of 1, 4, 5, 6, a digit index `I` with
`8 * I + 6 < 2 ^ 64` and a head step `0 <= k < I`, the modulus `8 * k + M` is
positive, the exponent `I - k` is at least 1, `ModularExp<16, I - k, 8k + M>` is
below `8k + M`, the divisor is not zero and the head term lies in `[0, 1)`. -/
theorem head_term_safe (M I k : Nat) (hM : M ∈ [1, 4, 5, 6]) (hI : 8 * I + 6 < 2 ^ 64)
    (hk : k < I) :
    (8 * k + M) % U64 = 8 * k + M ∧ 0 < (8 * k + M) % U64 ∧
    (I + U64 - k) % U64 = I - k ∧ 1 ≤ (I + U64 - k) % U64 ∧
    ModularExp 16 ((I + U64 - k) % U64) ((8 * k + M) % U64) < 8 * k + M ∧
    (8 * (k : ℚ) + M ≠ 0) ∧
    0 ≤ (ModularExp 16 ((I + U64 - k) % U64) ((8 * k + M) % U64) : ℚ) / (8 * (k : ℚ) + M) ∧
    (ModularExp 16 ((I + U64 - k) % U64) ((8 * k + M) % U64) : ℚ) / (8 * (k : ℚ) + M) < 1 := by
  have h : 1 ≤ M ∧ M ≤ 6 := by
    simp only [List.mem_cons, List.mem_singleton, List.not_mem_nil, or_false] at hM
    omega
  have hU : U64 = 2 ^ 64 := rfl
  have h1 : (I + U64 - k) % U64 = I - k := by
    rw [hU]; omega
  have h2 : (8 * k + M) % U64 = 8 * k + M := by
    rw [hU]; omega
  have hlt : ModularExp 16 ((I + U64 - k) % U64) ((8 * k + M) % U64) < 8 * k + M := by
    rw [h1, h2]
    exact ModularExp__lt (8 * k + M) (by omega) (I - k) _ (by omega)
  have hpos : (0 : ℚ) < 8 * (k : ℚ) + M := by
    have : (0 : ℚ) < M := by exact_mod_cast h.1
    positivity
  refine ⟨h2, by rw [h2]; omega, h1, by rw [h1]; omega, hlt, ne_of_gt hpos,
    head_term_nonneg M I k, ?_⟩
  rw [div_lt_one hpos]
  exact_mod_cast hlt

/-- Witness of C17 at the series constant 5, the digit index 3 and the step 2. -/
theorem head_term_safe_witness :
    5 ∈ [1, 4, 5, 6] ∧ 8 * 3 + 6 < 2 ^ 64 ∧ 2 < 3 ∧
    ((8 * 2 + 5) % U64 = 8 * 2 + 5 ∧ 0 < (8 * 2 + 5) % U64 ∧
    (3 + U64 - 2) % U64 = 3 - 2 ∧ 1 ≤ (3 + U64 - 2) % U64 ∧
    ModularExp 16 ((3 + U64 - 2) % U64) ((8 * 2 + 5) % U64) < 8 * 2 + 5 ∧
    (8 * ((2 : ℕ) : ℚ) + ((5 : ℕ) : ℚ) ≠ 0) ∧
    0 ≤ (ModularExp 16 ((3 + U64 - 2) % U64) ((8 * 2 + 5) % U64) : ℚ)
      / (8 * ((2 : ℕ) : ℚ) + ((5 : ℕ) : ℚ)) ∧
    (ModularExp 16 ((3 + U64 - 2) % U64) ((8 * 2 + 5) % U64) : ℚ)
      / (8 * ((2 : ℕ) : ℚ) + ((5 : ℕ) : ℚ)) < 1) :=
  ⟨by decide, by decide, by decide, head_term_safe 5 3 2 (by decide) (by decide) (by decide)⟩

/-- C18: for a base of at least 1, `Pow<base, exp>` is `base ^ exp` when
`base ^ exp <= 2 ^ 32 - 2` and `0` otherwise; so it is `0` or the exact power,
the product `TBase * Pow<TBase, TExp - 1>` of a 64-bit base is below `2 ^ 64`
(and at most `2 ^ 32 - 2` when the guard lets it be formed), and once
`Pow<base, e>` is `0` it is `0` for every larger exponent. -/
theorem Pow_saturation (base exp : Nat) (hb : 1 ≤ base) :
    Pow base exp = (if base ^ exp ≤ 2 ^ 32 - 2 then base ^ exp else 0) ∧
    (Pow base exp = 0 ∨ Pow base exp = base ^ exp) ∧
    (base < 2 ^ 64 → base * Pow base exp < 2 ^ 64) ∧
    ((UINT32_MAX - 1) / base < Pow base exp ∨ base * Pow base exp ≤ 2 ^ 32 - 2) ∧
    (Pow base exp = 0 → ∀ e, exp ≤ e → Pow base e = 0) := by
  have hT : UINT32_MAX - 1 = 2 ^ 32 - 2 := by decide
  have hform := Pow_closed_form base exp
  rw [hT] at hform
  have hguard : (UINT32_MAX - 1) / base < Pow base exp ∨ base * Pow base exp ≤ 2 ^ 32 - 2 := by
    rw [hT]
    rcases Nat.lt_or_ge ((2 ^ 32 - 2) / base) (Pow base exp) with h | h
    · exact Or.inl h
    · right
      calc base * Pow base exp ≤ base * ((2 ^ 32 - 2) / base) := Nat.mul_le_mul_left _ h
        _ ≤ 2 ^ 32 - 2 := Nat.mul_div_le _ _
  refine ⟨hform, ?_, ?_, hguard, ?_⟩
  · rw [hform]
    split_ifs
    · exact Or.inr rfl
    · exact Or.inl rfl
  · intro hb64
    have hle : Pow base exp ≤ 2 ^ 32 - 2 := by
      rw [hform]
      split_ifs with hc
      · exact hc
      · exact Nat.zero_le _
    by_cases h1 : Pow base exp ≤ 1
    · calc base * Pow base exp ≤ base * 1 := Nat.mul_le_mul_left _ h1
        _ < 2 ^ 64 := by omega
    · have hpe : Pow base exp = base ^ exp := by
        by_cases hc : base ^ exp ≤ 2 ^ 32 - 2
        · rw [hform, if_pos hc]
        · rw [hform, if_neg hc] at h1
          exact absurd (Nat.zero_le 1) h1
      have hexp : exp ≠ 0 := by
        intro h0
        subst h0
        exact h1 (by simp [Pow])
      have hbase : base ≤ base ^ exp := Nat.le_self_pow hexp base
      have hb32 : base ≤ 2 ^ 32 - 2 := by omega
      calc base * Pow base exp ≤ (2 ^ 32 - 2) * (2 ^ 32 - 2) := Nat.mul_le_mul hb32 hle
        _ < 2 ^ 64 := by norm_num
  · intro h0 e he
    have hgt : ¬ base ^ exp ≤ 2 ^ 32 - 2 := by
      intro hc
      rw [hform, if_pos hc] at h0
      have : 0 < base ^ exp := pow_pos (by omega) exp
      omega
    have hmono : base ^ exp ≤ base ^ e := Nat.pow_le_pow_right hb he
    rw [Pow_closed_form, hT, if_neg (by omega)]

/-- Witness of C18 at the base 16 and the exponent 8. -/
theorem Pow_saturation_witness :
    1 ≤ 16 ∧
    (Pow 16 8 = (if 16 ^ 8 ≤ 2 ^ 32 - 2 then 16 ^ 8 else 0) ∧
    (Pow 16 8 = 0 ∨ Pow 16 8 = 16 ^ 8) ∧
    (16 < 2 ^ 64 → 16 * Pow 16 8 < 2 ^ 64) ∧
    ((UINT32_MAX - 1) / 16 < Pow 16 8 ∨ 16 * Pow 16 8 ≤ 2 ^ 32 - 2) ∧
    (Pow 16 8 = 0 → ∀ e, 8 ≤ e → Pow 16 e = 0)) :=
  ⟨by decide, Pow_saturation 16 8 (by decide)⟩

/-- C19: every `PiHexSeries<M, I>` with `M` of 1, 4, 5, 6 lies in `[0, 2)`,
`PiHexFraction_<I>` lies strictly between -8 and 8, `PiHexFraction<I>` strictly
between 0 and 2, and the three values that `PiHexFraction` and `HexCharacter`
cast to `int` lie strictly between `-2 ^ 31` and `2 ^ 31`. -/
theorem cast_operands_in_range (I : Nat) :
    (∀ M ∈ [1, 4, 5, 6], 0 ≤ PiHexSeries M I ∧ PiHexSeries M I < 2) ∧
    (-8 < PiHexFraction_ I ∧ PiHexFraction_ I < 8) ∧
    (0 < PiHexFraction I ∧ PiHexFraction I < 2) ∧
    (-(2 : ℚ) ^ 31 < PiHexFraction_ I ∧ PiHexFraction_ I < 2 ^ 31) ∧
    (0 < Abs (PiHexFraction I) ∧ Abs (PiHexFraction I) < 2 ∧
      Abs (PiHexFraction I) < 2 ^ 31) ∧
    (0 ≤ 16 * (Abs (PiHexFraction I) - (toInt (Abs (PiHexFraction I)) : ℚ)) ∧
      16 * (Abs (PiHexFraction I) - (toInt (Abs (PiHexFraction I)) : ℚ)) < 16 ∧
      16 * (Abs (PiHexFraction I) - (toInt (Abs (PiHexFraction I)) : ℚ)) < 2 ^ 31) := by
  have hraw := raw_fraction_bounds I
  have hx := PiHexFraction_pos I
  have hA : Abs (PiHexFraction I) = PiHexFraction I := Abs_of_pos hx.1
  have hfr := sub_toInt_of_nonneg (Abs_nonneg (PiHexFraction I))
  refine ⟨fun M _ => PiHexSeries_range M I, hraw, hx, ⟨by linarith [hraw.1], by linarith [hraw.2]⟩,
    ⟨by rw [hA]; exact hx.1, by rw [hA]; exact hx.2, by rw [hA]; linarith [hx.2]⟩,
    ⟨by linarith [hfr.1], by linarith [hfr.2], by linarith [hfr.2]⟩⟩

/-- C20: at the base `2 ^ 33`, the exponent 2 and the modulus `2 ^ 64 - 1` the
square `TBaseMod * TBaseMod` wraps to `0` and `ModularExp` is `0`, while
`(2 ^ 33) ^ 2 mod (2 ^ 64 - 1)` is `4`; the modulus `2 ^ 32 + 1`, the first above
`2 ^ 32`, fails in the same way at the base `2 ^ 32`; up to the modulus `2 ^ 32`
the value is `base ^ exp mod m`. -/
theorem ModularExp_wide_modulus_wraps :
    (2 ^ 33 < 2 ^ 64 ∧ 2 < 2 ^ 64 ∧ 2 ^ 32 < 2 ^ 64 - 1 ∧ 2 ^ 64 - 1 < 2 ^ 64) ∧
    (2 ^ 33 % (2 ^ 64 - 1) * (2 ^ 33 % (2 ^ 64 - 1))) % U64 = 0 ∧
    ModularExp (2 ^ 33) 2 (2 ^ 64 - 1) = 0 ∧
    (2 ^ 33) ^ 2 % (2 ^ 64 - 1) = 4 ∧
    ModularExp (2 ^ 33) 2 (2 ^ 64 - 1) ≠ (2 ^ 33) ^ 2 % (2 ^ 64 - 1) ∧
    ModularExp (2 ^ 32) 2 (2 ^ 32 + 1) ≠ (2 ^ 32) ^ 2 % (2 ^ 32 + 1) ∧
    (∃ base exp m, base < 2 ^ 64 ∧ exp < 2 ^ 64 ∧ 2 ^ 32 < m ∧ m < 2 ^ 64 ∧
      ModularExp base exp m ≠ base ^ exp % m) ∧
    (∀ base exp m, 2 ≤ m → m ≤ 2 ^ 32 → ModularExp base exp m = base ^ exp % m) := by
  have h1 : ModularExp (2 ^ 33) 2 (2 ^ 64 - 1) = 0 := by decide!
  have h2 : ModularExp (2 ^ 32) 2 (2 ^ 32 + 1) ≠ (2 ^ 32) ^ 2 % (2 ^ 32 + 1) := by decide!
  have h3 : ModularExp (2 ^ 33) 2 (2 ^ 64 - 1) ≠ (2 ^ 33) ^ 2 % (2 ^ 64 - 1) := by
    rw [h1]; decide
  exact ⟨by decide, by decide, h1, by decide, h3, h2,
    ⟨2 ^ 33, 2, 2 ^ 64 - 1, by decide, by decide, by decide, by decide, h3⟩,
    fun base exp m h2m h32 => ModularExp_eq base exp m (by omega) h32 (Or.inr h2m)⟩

end meta_pi
